import Mathlib

/-!
Verification of the budget/report aggregation and money-formatting layer of a
small personal-finance web application (Rust, `src/main.rs`, `src/db.rs`,
`src/models.rs`).

The embedding is shallow: each Rust function (and each SQL query in `db.rs`)
is translated into an executable Lean definition over `List Char` / `String`
data and explicit list-of-row database states.  Machine integers (`i64`) are
modelled as `Int` with an explicit wrap `wrap64` at the two arithmetic sites
where the Rust release build can overflow (`whole * 100 + frac` in
`parse_amount_to_cents`, and `cents.abs()` in `format_money`); everywhere
else the source arithmetic cannot leave the `i64` range on the modelled
values, as noted at each definition.
-/

namespace Lumen

/-- Model of Rust `char::is_whitespace` restricted to the ASCII whitespace
that actually occurs in the modelled inputs.  Lean's `Char.isWhitespace`
(space, tab, CR, LF) is used; the Unicode-only whitespace cases of Rust do
not occur in any string this development evaluates. -/
def isWs (c : Char) : Bool := c.isWhitespace

/-- Model of Rust `str::trim` on the character list of a string: drop
whitespace from both ends. -/
def trimChars (s : List Char) : List Char :=
  ((s.dropWhile isWs).reverse.dropWhile isWs).reverse

/-- Model of Rust `s.replace(',', ".")` character-wise (the pattern and the
replacement are both one character long, so `replace` is a character map). -/
def commaToDot (c : Char) : Char := if c = ',' then '.' else c

/-- Model of Rust `s.split('.')`: split a character list at every `'.'`.
Like Rust's `split`, the empty list yields one empty part, and separators at
the ends yield empty parts. -/
def splitDot : List Char → List (List Char)
  | [] => [[]]
  | c :: rest =>
    if c = '.' then [] :: splitDot rest
    else
      match splitDot rest with
      | [] => [[c]]
      | p :: ps => (c :: p) :: ps

/-- Numeric value of a digit character (`'0'` ↦ 0, …, `'9'` ↦ 9). -/
def charVal (c : Char) : Nat := c.toNat - 48

/-- Decimal value of a list of digit characters, most significant first
(the accumulator form used by integer parsers). -/
def digitsVal (l : List Char) : Nat :=
  l.foldl (fun a c => 10 * a + charVal c) 0

/-- Model of Rust `str::parse::<i64>()`: an optional leading `'+'` or `'-'`
sign followed by one or more ASCII digits, with a checked `i64` range
(`-2^63 ≤ v ≤ 2^63 - 1`); anything else is `none`. -/
def rustParseI64 (s : List Char) : Option Int :=
  match s with
  | [] => none
  | c :: rest =>
    let signed : Int × List Char :=
      if c = '-' then (-1, rest)
      else if c = '+' then (1, rest)
      else (1, s)
    if signed.2 ≠ [] ∧ signed.2.all Char.isDigit then
      let v : Int := signed.1 * (digitsVal signed.2 : Int)
      if -(2 ^ 63) ≤ v ∧ v ≤ 2 ^ 63 - 1 then some v else none
    else none

/-- Two's-complement wrap of an integer into the `i64` range, the semantics
of overflowing `i64` arithmetic in a Rust release build. -/
def wrap64 (x : Int) : Int := (x + 2 ^ 63) % 2 ^ 64 - 2 ^ 63

/-- Model of `parse_amount_to_cents` (src/main.rs:124-154): trim, reject
empty input and a leading `'-'`, normalise `','` to `'.'`, split at `'.'`,
require at most two parts, parse the whole part as `i64`, parse the at most
two fractional digits zero-padded to width two as `i64`, and return
`whole * 100 + frac` computed in wrapping `i64` arithmetic. -/
def parse_amount_to_cents (input : String) : Option Int :=
  let s := trimChars input.data
  if s = [] then none
  else if s.head? = some '-' then none
  else
    match splitDot (s.map commaToDot) with
    | [] => none
    | [whole_str] =>
      (rustParseI64 whole_str).map fun whole => wrap64 (wrap64 (whole * 100) + 0)
    | [whole_str, frac_str] =>
      match rustParseI64 whole_str with
      | none => none
      | some whole =>
        if 2 < frac_str.length then none
        else
          let padded := frac_str ++ List.replicate (2 - frac_str.length) '0'
          (rustParseI64 padded).map fun frac => wrap64 (wrap64 (whole * 100) + frac)
    | _ :: _ :: _ :: _ => none

/-- The decimal digit character for a value below ten. -/
def digitChar : Nat → Char
  | 0 => '0' | 1 => '1' | 2 => '2' | 3 => '3' | 4 => '4'
  | 5 => '5' | 6 => '6' | 7 => '7' | 8 => '8' | _ => '9'

/-- Fuel-indexed digit expansion: the decimal digits of `n`, most significant
first, empty for `n = 0`.  The fuel only bounds the recursion depth; any
fuel with `n < 10 ^ fuel` yields the same list. -/
def natDigitsAux : Nat → Nat → List Char
  | 0, _ => []
  | fuel + 1, n =>
    if n = 0 then []
    else natDigitsAux fuel (n / 10) ++ [digitChar (n % 10)]

/-- Canonical decimal digit string of a natural number (no leading zeros,
`"0"` for zero).  This models the decimal rendering used by Rust's `Display`
for non-negative integers. -/
def natDigits (n : Nat) : List Char :=
  if n = 0 then ['0'] else natDigitsAux (n + 1) n

/-- Model of Rust `Display` for `i64` (the `{}` format): a `'-'` sign for
negative values followed by the decimal digits of the magnitude. -/
def rustDisplayInt (n : Int) : List Char :=
  (if n < 0 then ['-'] else []) ++ natDigits n.natAbs

/-- Model of Rust's `{:02}` format for `i64`: like `{}`, but zero-padded
after the sign up to a minimum total width of two. -/
def rustPad2Int (n : Int) : List Char :=
  let sign := if n < 0 then ['-'] else []
  let ds := natDigits n.natAbs
  sign ++ List.replicate (2 - (sign.length + ds.length)) '0' ++ ds

/-- Model of `format_money` (src/main.rs:116-122): a sign for negative
cents, then `abs / 100`, a dot, and `abs % 100` in `{:02}` format, where
`abs` is `cents.abs()` — which in a release build wraps at `i64::MIN`
(modelled by `wrap64`), and `/` and `%` are Rust's truncating `i64` division
and remainder (`Int.tdiv` / `Int.tmod`). -/
def format_money (cents : Int) : String :=
  let sign := if cents < 0 then ['-'] else []
  let abs := wrap64 (cents.natAbs : Int)
  let whole := abs.tdiv 100
  let frac := abs.tmod 100
  String.mk (sign ++ rustDisplayInt whole ++ '.' :: rustPad2Int frac)

example : parse_amount_to_cents "12.5" = some 1250 := by decide
example : parse_amount_to_cents "12,5" = some 1250 := by decide
example : parse_amount_to_cents " 7 " = some 700 := by decide
example : parse_amount_to_cents "7." = some 700 := by decide
example : parse_amount_to_cents "" = none := by decide
example : parse_amount_to_cents "-5" = none := by decide
example : parse_amount_to_cents "1.2.3" = none := by decide
example : parse_amount_to_cents "1.234" = none := by decide
example : parse_amount_to_cents "abc" = none := by decide
example : parse_amount_to_cents "+5" = some 500 := by decide
example : parse_amount_to_cents "1.-5" = some 95 := by decide
example : parse_amount_to_cents "99999999999999999999" = none := by decide
example : parse_amount_to_cents "100000000000000000" = some (-8446744073709551616) := by decide
example : format_money (-150) = "-1.50" := by decide
example : format_money 0 = "0.00" := by decide
example : format_money 1250 = "12.50" := by decide
example : format_money (-9223372036854775808) = "--92233720368547758.-8" := by decide

/-! ### View assembly (src/main.rs) -/

/-- Rounding to the nearest integer, halves away from zero: the behaviour of
Rust `f64::round`.  The source computes the percentage in `f64`; it is
modelled here in exact rational arithmetic, which agrees with the `f64`
computation whenever the latter is exact (all magnitudes in this development
are far below `2^53`). -/
def roundHalfAway (q : ℚ) : Int := if 0 ≤ q then ⌊q + 1 / 2⌋ else ⌈q - 1 / 2⌉

/-- Row type of `list_budgets` (src/models.rs `BudgetRecord`). -/
structure BudgetRecord where
  id : Int
  category_id : Int
  category_name : String
  month : String
  amount_cents : Int
  spent_cents : Int
deriving DecidableEq

/-- Row type of `dashboard_budgets` (src/models.rs `DashboardBudget`). -/
structure DashboardBudget where
  category_name : String
  budget_cents : Int
  spent_cents : Int
  remaining_cents : Int
deriving DecidableEq

/-- Row type of `report_months` (src/models.rs `ReportMonth`). -/
structure ReportMonth where
  month : String
  income_cents : Int
  expense_cents : Int
  net_cents : Int
deriving DecidableEq

/-- Display structure built by `budget_view` (src/main.rs `BudgetView`). -/
structure BudgetView where
  id : Int
  category_name : String
  month : String
  amount : String
  spent : String
  remaining : String
  percent : Int
deriving DecidableEq

/-- Display structure built by `dashboard_budget_view`
(src/main.rs `DashboardBudgetView`). -/
structure DashboardBudgetView where
  category_name : String
  budget : String
  spent : String
  remaining : String
  percent : Int
deriving DecidableEq

/-- Model of `budget_view` (src/main.rs:727-743): formats the money fields
and computes `percent`, guarding the `amount_cents = 0` case before any
division happens. -/
def budget_view (record : BudgetRecord) : BudgetView :=
  let remaining := record.amount_cents - record.spent_cents
  let percent : Int :=
    if record.amount_cents = 0 then 0
    else roundHalfAway ((record.spent_cents : ℚ) / (record.amount_cents : ℚ) * 100)
  { id := record.id
    category_name := record.category_name
    month := record.month
    amount := format_money record.amount_cents
    spent := format_money record.spent_cents
    remaining := format_money remaining
    percent := percent }

/-- Model of `dashboard_budget_view` (src/main.rs:745-758). -/
def dashboard_budget_view (record : DashboardBudget) : DashboardBudgetView :=
  let percent : Int :=
    if record.budget_cents = 0 then 0
    else roundHalfAway ((record.spent_cents : ℚ) / (record.budget_cents : ℚ) * 100)
  { category_name := record.category_name
    budget := format_money record.budget_cents
    spent := format_money record.spent_cents
    remaining := format_money record.remaining_cents
    percent := percent }

/-! ### Database model (src/db.rs)

The relational state is a triple of row lists mirroring the `categories`,
`transactions` and `budgets` tables of the schema in `run_migrations`.  Each
query of `db.rs` becomes a list function; SQL `SUM` is a list sum (with
`COALESCE(…, 0)` giving `0` on an empty group), `LIKE 'YYYY-MM-%'` is a
prefix test (the month arguments contain no wildcard characters),
`substr(occurred_on, 1, 7)` is `List.take 7`, and `ORDER BY` is an insertion
sort on the key in SQLite's BINARY (codepoint) order. -/

/-- A row of the `categories` table. -/
structure Category where
  id : Int
  name : String
  kind : String
deriving DecidableEq

/-- A row of the `transactions` table. -/
structure Txn where
  id : Int
  kind : String
  amount_cents : Int
  category_id : Option Int
  occurred_on : String
  note : Option String
  receipt_path : Option String
deriving DecidableEq

/-- A row of the `budgets` table. -/
structure Budget where
  id : Int
  category_id : Int
  month : String
  amount_cents : Int
deriving DecidableEq

/-- A database state: the three tables the modelled queries read. -/
structure DB where
  categories : List Category
  transactions : List Txn
  budgets : List Budget
deriving DecidableEq

/-- SQL `occurred_on LIKE '<month>-%'` for a wildcard-free month token:
`occurred_on` starts with `month ++ "-"`. -/
def likeMonth (month : String) (date : String) : Bool :=
  (month.data ++ ['-']).isPrefixOf date.data

/-- SQL `substr(occurred_on, 1, 7)`: the first seven characters. -/
def monthOf (t : Txn) : String := String.mk (t.occurred_on.data.take 7)

/-- Codepoint-order comparison of character lists: SQLite's BINARY collation
for the ASCII strings this development orders. -/
def charsLe : List Char → List Char → Bool
  | [], _ => true
  | _ :: _, [] => false
  | a :: as, b :: bs =>
    if a.toNat < b.toNat then true
    else if b.toNat < a.toNat then false
    else charsLe as bs

/-- Insert into a sorted list, for `sortBy`. -/
def insertBy (le : α → α → Bool) (x : α) : List α → List α
  | [] => [x]
  | y :: ys => if le x y then x :: y :: ys else y :: insertBy le x ys

/-- Insertion sort by a boolean comparison: the model of SQL `ORDER BY`. -/
def sortBy (le : α → α → Bool) : List α → List α
  | [] => []
  | x :: xs => insertBy le x (sortBy le xs)

/-- The `spent_cents` aggregate shared by `list_budgets` and
`dashboard_budgets`: the sum of `amount_cents` over expense transactions of
the given category occurring in the given month (`0` when none match, by
`COALESCE(SUM(…), 0)`). -/
def spentFor (txns : List Txn) (cid : Int) (month : String) : Int :=
  ((txns.filter fun t =>
      t.category_id == some cid && t.kind == "expense" && likeMonth month t.occurred_on).map
    (·.amount_cents)).sum

/-- Model of `month_totals` (src/db.rs:336-357): the pair of
`COALESCE(SUM(amount_cents), 0)` over income rows and over expense rows of
the month. -/
def month_totals (txns : List Txn) (month : String) : Int × Int :=
  ( ((txns.filter fun t => t.kind == "income" && likeMonth month t.occurred_on).map
      (·.amount_cents)).sum,
    ((txns.filter fun t => t.kind == "expense" && likeMonth month t.occurred_on).map
      (·.amount_cents)).sum )

/-- Model of `list_budgets` (src/db.rs:288-321): budgets of the month inner
joined with their category, left joined with matching expense transactions,
grouped by the budget row (whose `id` is a primary key, so every group is a
single budget/category pair), ordered by category name.  The `GROUP BY
b.id, …` keys are reproduced by emitting one row per budget/category join
pair. -/
def list_budgets (db : DB) (month : String) : List BudgetRecord :=
  sortBy (fun r1 r2 => charsLe r1.category_name.data r2.category_name.data)
    ((db.budgets.filter fun b => b.month == month).flatMap fun b =>
      (db.categories.filter fun c => c.id == b.category_id).map fun c =>
        { id := b.id
          category_id := b.category_id
          category_name := c.name
          month := b.month
          amount_cents := b.amount_cents
          spent_cents := spentFor db.transactions b.category_id month })

/-- Model of `dashboard_budgets` (src/db.rs:359-392): the same join as
`list_budgets`, but `GROUP BY c.name, b.amount_cents` — so budget rows
sharing category name and allocated amount fall into one group, whose
`SUM(t.amount_cents)` adds the matching transactions of every merged row. -/
def dashboard_budgets (db : DB) (month : String) : List DashboardBudget :=
  let pairs := (db.budgets.filter fun b => b.month == month).flatMap fun b =>
    (db.categories.filter fun c => c.id == b.category_id).map fun c =>
      (c.name, b.amount_cents, spentFor db.transactions b.category_id month)
  let keys := (pairs.map fun p => (p.1, p.2.1)).dedup
  sortBy (fun r1 r2 => charsLe r1.category_name.data r2.category_name.data)
    (keys.map fun k =>
      let spent := ((pairs.filter fun p => p.1 == k.1 && p.2.1 == k.2).map fun p => p.2.2).sum
      { category_name := k.1
        budget_cents := k.2
        spent_cents := spent
        remaining_cents := k.2 - spent })

/-- Income component of a `report_months` group: the sum of
`CASE WHEN kind = 'income' THEN amount_cents END` over the month's rows. -/
def incomeSumMonth (txns : List Txn) (m : String) : Int :=
  ((txns.filter fun t => t.kind == "income" && monthOf t == m).map (·.amount_cents)).sum

/-- Expense component of a `report_months` group. -/
def expenseSumMonth (txns : List Txn) (m : String) : Int :=
  ((txns.filter fun t => t.kind == "expense" && monthOf t == m).map (·.amount_cents)).sum

/-- SQL `LIMIT ?1` with an `i64` argument: a negative limit means no limit
in SQLite; otherwise keep the first `limit` rows. -/
def takeLimit (limit : Int) (l : List α) : List α :=
  if limit < 0 then l else l.take limit.toNat

/-- Model of `report_months` (src/db.rs:394-422): one row per distinct
`substr(occurred_on, 1, 7)` value, ordered most-recent-first, limited, with
the per-kind sums and `net = income - expense` (computed by the Rust row
mapper). -/
def report_months (txns : List Txn) (limit : Int) : List ReportMonth :=
  let months := takeLimit limit (sortBy (fun a b => charsLe b.data a.data) (txns.map monthOf).dedup)
  months.map fun m =>
    { month := m
      income_cents := incomeSumMonth txns m
      expense_cents := expenseSumMonth txns m
      net_cents := incomeSumMonth txns m - expenseSumMonth txns m }

/-! ### Receipt gate (src/main.rs) -/

/-- Model of Rust `str::to_lowercase` on one character, restricted to the
alphabets the gate can meet in this development: ASCII letters and the
Russian alphabet (`А`–`Я` map to `а`–`я`, `Ё` to `ё`).  Rust's full Unicode
lowercasing agrees with this on every string compared here. -/
def rustLowerChar (c : Char) : Char :=
  if 'A' ≤ c ∧ c ≤ 'Z' then Char.ofNat (c.toNat + 32)
  else if c = 'Ё' then 'ё'
  else if 'А' ≤ c ∧ c ≤ 'Я' then Char.ofNat (c.toNat + 32)
  else c

/-- Model of Rust `str::to_lowercase` (see `rustLowerChar`). -/
def rustToLowercase (s : List Char) : List Char := s.map rustLowerChar

/-- Model of `is_receipt_category` (src/main.rs:171-173):
`name.trim().to_lowercase() == "жкх"`. -/
def is_receipt_category (name : String) : Bool :=
  rustToLowercase (trimChars name.data) == "жкх".data

/-- The pure persistence decision of `persist_receipt` (src/main.rs:189-217):
`true` exactly when the source reaches the filesystem-writing tail of the
function; in every `false` case the source returns `Ok(None)` before
touching the filesystem, silently discarding any uploaded file.  The
filename generation and the file writes themselves are I/O and outside the
model. -/
def persist_receipt_persists (hasFile : Bool) (category_name : Option String)
    (kind : String) : Bool :=
  match hasFile, category_name with
  | false, _ => false
  | true, none => false
  | true, some name =>
    if !(kind == "expense") || !(is_receipt_category name) then false else true

/-! ### Concrete states used by the end-to-end scenario and counterexamples -/

/-- The spec's end-to-end scenario: an expense of 500 on 2024-01-10 (category
id 1, "Food") and an income of 10000 on 2024-01-05 with no category. -/
def scenarioTxns : List Txn :=
  [ { id := 1, kind := "expense", amount_cents := 500, category_id := some 1,
      occurred_on := "2024-01-10", note := none, receipt_path := none },
    { id := 2, kind := "income", amount_cents := 10000, category_id := none,
      occurred_on := "2024-01-05", note := none, receipt_path := none } ]

/-- A state with two identical budget rows (category "Food", month 2024-01,
allocated 1000 each) and one matching expense of 500. -/
def dbTwoBudgets : DB :=
  { categories := [{ id := 1, name := "Food", kind := "expense" }],
    transactions := [{ id := 1, kind := "expense", amount_cents := 500, category_id := some 1,
                       occurred_on := "2024-01-10", note := none, receipt_path := none }],
    budgets := [{ id := 1, category_id := 1, month := "2024-01", amount_cents := 1000 },
                { id := 2, category_id := 1, month := "2024-01", amount_cents := 1000 }] }

example : month_totals scenarioTxns "2024-01" = (10000, 500) := by decide
example : report_months scenarioTxns 1 =
    [{ month := "2024-01", income_cents := 10000, expense_cents := 500, net_cents := 9500 }] := by
  decide
example : (list_budgets dbTwoBudgets "2024-01").map (·.spent_cents) = [500, 500] := by decide
example : dashboard_budgets dbTwoBudgets "2024-01" =
    [{ category_name := "Food", budget_cents := 1000, spent_cents := 1000,
       remaining_cents := 0 }] := by decide
example : is_receipt_category "ЖКХ" = true := by decide
example : is_receipt_category "жкх" = true := by decide
example : is_receipt_category " ЖКХ " = true := by decide
example : is_receipt_category "Еда" = false := by decide
example : persist_receipt_persists true (some "ЖКХ") "income" = false := by decide
example : persist_receipt_persists true (some "ЖКХ") "expense" = true := by decide
example : (budget_view ⟨1, 1, "x", "m", 0, 700⟩).percent = 0 := by rfl
example : (budget_view ⟨1, 1, "x", "m", 200, 150⟩).percent = 75 := by
  norm_num [budget_view, roundHalfAway]

/-! ### Digit-character facts -/

theorem char_toNat_inj {a b : Char} (h : a.toNat = b.toNat) : a = b := by
  apply Char.ext
  apply UInt32.ext
  simpa [Char.toNat] using h

theorem toNat_bounds_of_isDigit {c : Char} (h : c.isDigit = true) :
    48 ≤ c.toNat ∧ c.toNat ≤ 57 := by
  simp [Char.isDigit] at h
  exact h

theorem charVal_le_nine {c : Char} (h : c.isDigit = true) : charVal c ≤ 9 := by
  have := toNat_bounds_of_isDigit h
  unfold charVal
  omega

theorem digitChar_charVal {c : Char} (h : c.isDigit = true) : digitChar (charVal c) = c := by
  obtain ⟨h1, h2⟩ := toNat_bounds_of_isDigit h
  unfold charVal
  interval_cases h3 : c.toNat <;>
    exact char_toNat_inj (by rw [h3]; decide)

theorem charVal_digitChar {d : Nat} (h : d < 10) : charVal (digitChar d) = d := by
  interval_cases d <;> decide

theorem digitChar_isDigit {d : Nat} (h : d < 10) : (digitChar d).isDigit = true := by
  interval_cases d <;> decide

theorem digitChar_ne_zero {d : Nat} (h1 : 1 ≤ d) (h2 : d < 10) : digitChar d ≠ '0' := by
  interval_cases d <;> decide

theorem charVal_pos_of_ne_zero {c : Char} (h : c.isDigit = true) (hz : c ≠ '0') :
    1 ≤ charVal c := by
  obtain ⟨h1, h2⟩ := toNat_bounds_of_isDigit h
  unfold charVal
  have h0 : '0'.toNat = 48 := rfl
  rcases Nat.lt_or_ge 48 c.toNat with h3 | h3
  · omega
  · exact absurd (char_toNat_inj (show c.toNat = '0'.toNat by omega)) hz

theorem charVal_zero_char {c : Char} (h : c.isDigit = true) (hz : charVal c = 0) : c = '0' := by
  obtain ⟨h1, h2⟩ := toNat_bounds_of_isDigit h
  unfold charVal at hz
  have h0 : '0'.toNat = 48 := rfl
  exact char_toNat_inj (show c.toNat = '0'.toNat by omega)

theorem isWs_eq_false {c : Char} (h : 43 ≤ c.toNat) : isWs c = false := by
  have h32 : c ≠ ' ' := fun he => by subst he; revert h; decide
  have h9 : c ≠ '\t' := fun he => by subst he; revert h; decide
  have h13 : c ≠ '\r' := fun he => by subst he; revert h; decide
  have h10 : c ≠ '\n' := fun he => by subst he; revert h; decide
  simp [isWs, Char.isWhitespace, h32, h9, h13, h10]

theorem isWs_eq_false_of_isDigit {c : Char} (h : c.isDigit = true) : isWs c = false :=
  isWs_eq_false (by have := toNat_bounds_of_isDigit h; omega)

theorem ne_of_isDigit {c : Char} (h : c.isDigit = true) {d : Char}
    (hd : d.toNat < 48 ∨ 57 < d.toNat) : c ≠ d := by
  intro he
  subst he
  have := toNat_bounds_of_isDigit h
  omega

/-! ### Decimal value of digit lists -/

theorem digitsVal_from (init : Nat) (l : List Char) :
    l.foldl (fun a c => 10 * a + charVal c) init = init * 10 ^ l.length + digitsVal l := by
  induction l generalizing init with
  | nil => simp [digitsVal]
  | cons c t ih =>
    show t.foldl _ (10 * init + charVal c) = _
    rw [ih (10 * init + charVal c)]
    have h2 : digitsVal (c :: t) = t.foldl (fun a c => 10 * a + charVal c) (10 * 0 + charVal c) :=
      rfl
    rw [h2, ih (10 * 0 + charVal c)]
    simp [List.length_cons]
    ring

theorem digitsVal_cons (c : Char) (t : List Char) :
    digitsVal (c :: t) = charVal c * 10 ^ t.length + digitsVal t := by
  show t.foldl _ (10 * 0 + charVal c) = _
  rw [digitsVal_from]
  ring_nf

theorem digitsVal_append (a b : List Char) :
    digitsVal (a ++ b) = digitsVal a * 10 ^ b.length + digitsVal b := by
  unfold digitsVal
  rw [List.foldl_append, digitsVal_from]
  rfl

theorem digitsVal_replicate_zero (k : Nat) : digitsVal (List.replicate k '0') = 0 := by
  induction k with
  | zero => rfl
  | succ n ih =>
    rw [List.replicate_succ, digitsVal_cons, ih]
    simp [charVal]

theorem digitsVal_pad (l : List Char) (k : Nat) :
    digitsVal (l ++ List.replicate k '0') = digitsVal l * 10 ^ k := by
  rw [digitsVal_append, digitsVal_replicate_zero, List.length_replicate]
  omega

theorem digitsVal_lt {l : List Char} (h : ∀ c ∈ l, c.isDigit = true) :
    digitsVal l < 10 ^ l.length := by
  induction l with
  | nil => simp [digitsVal]
  | cons c t ih =>
    rw [digitsVal_cons]
    have hc : charVal c ≤ 9 := charVal_le_nine (h c (List.mem_cons_self c t))
    have ht : digitsVal t < 10 ^ t.length := ih fun x hx => h x (List.mem_cons_of_mem c hx)
    calc charVal c * 10 ^ t.length + digitsVal t
        < charVal c * 10 ^ t.length + 10 ^ t.length := by omega
      _ = (charVal c + 1) * 10 ^ t.length := by ring
      _ ≤ 10 * 10 ^ t.length := by
          have : charVal c + 1 ≤ 10 := by omega
          exact Nat.mul_le_mul_right _ this
      _ = 10 ^ (c :: t).length := by rw [List.length_cons]; ring

theorem digitsVal_head_ge {c : Char} {t : List Char} (hc : c.isDigit = true) (hz : c ≠ '0') :
    10 ^ t.length ≤ digitsVal (c :: t) := by
  rw [digitsVal_cons]
  have h1 : 1 ≤ charVal c := charVal_pos_of_ne_zero hc hz
  calc 10 ^ t.length = 1 * 10 ^ t.length := by ring
    _ ≤ charVal c * 10 ^ t.length := Nat.mul_le_mul_right _ h1
    _ ≤ charVal c * 10 ^ t.length + digitsVal t := Nat.le_add_right _ _

/-! ### Canonical decimal rendering -/

theorem natDigitsAux_zero (fuel : Nat) : natDigitsAux fuel 0 = [] := by
  cases fuel <;> rfl

theorem natDigitsAux_val {fuel n : Nat} (h : n < 10 ^ fuel) :
    digitsVal (natDigitsAux fuel n) = n := by
  induction fuel generalizing n with
  | zero => simp at h; simp [h, natDigitsAux, digitsVal]
  | succ f ih =>
    by_cases hn : n = 0
    · simp [hn, natDigitsAux_zero, digitsVal]
    · rw [natDigitsAux, if_neg hn, digitsVal_append]
      have hdiv : n / 10 < 10 ^ f := by
        rw [Nat.div_lt_iff_lt_mul (by norm_num)]
        calc n < 10 ^ (f + 1) := h
          _ = 10 ^ f * 10 := by ring
      rw [ih hdiv]
      have hm : n % 10 < 10 := Nat.mod_lt _ (by norm_num)
      have : digitsVal [digitChar (n % 10)] = n % 10 := by
        rw [show [digitChar (n % 10)] = digitChar (n % 10) :: ([] : List Char) from rfl,
          digitsVal_cons, charVal_digitChar hm]
        simp [digitsVal]
      rw [this]
      simp
      omega

theorem natDigitsAux_digits {fuel n : Nat} {c : Char} (hc : c ∈ natDigitsAux fuel n) :
    c.isDigit = true := by
  induction fuel generalizing n with
  | zero => simp [natDigitsAux] at hc
  | succ f ih =>
    by_cases hn : n = 0
    · rw [hn, natDigitsAux_zero] at hc; simp at hc
    · rw [natDigitsAux, if_neg hn] at hc
      rcases List.mem_append.mp hc with h | h
      · exact ih h
      · have : c = digitChar (n % 10) := by simpa using h
        rw [this]
        exact digitChar_isDigit (Nat.mod_lt _ (by norm_num))

theorem natDigitsAux_head {fuel n : Nat} (hn : n ≠ 0) (h : n < 10 ^ fuel) :
    ∃ c t, natDigitsAux fuel n = c :: t ∧ c.isDigit = true ∧ c ≠ '0' := by
  induction fuel generalizing n with
  | zero => simp at h; omega
  | succ f ih =>
    rw [natDigitsAux, if_neg hn]
    by_cases hd : n / 10 = 0
    · have hm : n % 10 = n := by omega
      have hlt : n < 10 := by omega
      refine ⟨digitChar (n % 10), [], ?_, ?_, ?_⟩
      · rw [hd, natDigitsAux_zero]; rfl
      · exact digitChar_isDigit (Nat.mod_lt _ (by norm_num))
      · rw [hm]; exact digitChar_ne_zero (by omega) hlt
    · have hdiv : n / 10 < 10 ^ f := by
        rw [Nat.div_lt_iff_lt_mul (by norm_num)]
        calc n < 10 ^ (f + 1) := h
          _ = 10 ^ f * 10 := by ring
      obtain ⟨c, t, he, hdg, hz⟩ := ih hd hdiv
      exact ⟨c, t ++ [digitChar (n % 10)], by rw [he]; rfl, hdg, hz⟩

theorem natDigitsAux_congr {f1 f2 n : Nat} (h1 : n < 10 ^ f1) (h2 : n < 10 ^ f2) :
    natDigitsAux f1 n = natDigitsAux f2 n := by
  induction f1 generalizing f2 n with
  | zero => simp at h1; rw [h1, natDigitsAux_zero, natDigitsAux_zero]
  | succ g1 ih =>
    by_cases hn : n = 0
    · rw [hn, natDigitsAux_zero, natDigitsAux_zero]
    · cases f2 with
      | zero => simp at h2; omega
      | succ g2 =>
        rw [natDigitsAux, natDigitsAux, if_neg hn, if_neg hn]
        have d1 : n / 10 < 10 ^ g1 := by
          rw [Nat.div_lt_iff_lt_mul (by norm_num)]
          calc n < 10 ^ (g1 + 1) := h1
            _ = 10 ^ g1 * 10 := by ring
        have d2 : n / 10 < 10 ^ g2 := by
          rw [Nat.div_lt_iff_lt_mul (by norm_num)]
          calc n < 10 ^ (g2 + 1) := h2
            _ = 10 ^ g2 * 10 := by ring
        rw [ih d1 d2]

theorem lt_ten_pow_succ_self (n : Nat) : n < 10 ^ (n + 1) :=
  lt_of_lt_of_le (Nat.lt_pow_self (by norm_num) n)
    (Nat.pow_le_pow_right (by norm_num) (Nat.le_succ n))

theorem natDigits_val (n : Nat) : digitsVal (natDigits n) = n := by
  by_cases hn : n = 0
  · rw [hn]; rfl
  · rw [natDigits, if_neg hn]
    exact natDigitsAux_val (lt_ten_pow_succ_self n)

theorem natDigits_digits {n : Nat} {c : Char} (hc : c ∈ natDigits n) : c.isDigit = true := by
  by_cases hn : n = 0
  · rw [hn] at hc; simp [natDigits] at hc; rw [hc]; decide
  · rw [natDigits, if_neg hn] at hc; exact natDigitsAux_digits hc

theorem natDigits_head {n : Nat} (hn : n ≠ 0) :
    ∃ c t, natDigits n = c :: t ∧ c.isDigit = true ∧ c ≠ '0' := by
  rw [natDigits, if_neg hn]
  exact natDigitsAux_head hn (lt_ten_pow_succ_self n)

theorem natDigits_ne_nil (n : Nat) : natDigits n ≠ [] := by
  by_cases hn : n = 0
  · rw [hn]; decide
  · obtain ⟨c, t, he, _, _⟩ := natDigits_head hn
    rw [he]; simp

theorem natDigits_length_le {n k : Nat} (h : n < 10 ^ k) (hk : 0 < k) :
    (natDigits n).length ≤ k := by
  by_cases hn : n = 0
  · rw [hn]; simpa [natDigits] using hk
  · obtain ⟨c, t, he, hdg, hz⟩ := natDigits_head hn
    by_contra hlen
    push_neg at hlen
    have hge : 10 ^ t.length ≤ digitsVal (c :: t) := digitsVal_head_ge hdg hz
    rw [← he, natDigits_val] at hge
    have hk2 : k ≤ t.length := by
      rw [he] at hlen
      simp [List.length_cons] at hlen
      omega
    have : 10 ^ k ≤ 10 ^ t.length := Nat.pow_le_pow_right (by norm_num) hk2
    omega

theorem natDigits_unique {l : List Char} (hd : ∀ c ∈ l, c.isDigit = true) (hne : l ≠ [])
    (hcanon : l.head? ≠ some '0' ∨ l = ['0']) : natDigits (digitsVal l) = l := by
  induction l using List.reverseRecOn with
  | nil => exact absurd rfl hne
  | append_singleton ys d ih =>
    cases ys with
    | nil =>
      simp only [List.nil_append]
      have hdd : d.isDigit = true := hd d (by simp)
      have hdv : digitsVal [d] = charVal d := by
        rw [show [d] = d :: ([] : List Char) from rfl, digitsVal_cons]
        simp [digitsVal]
      by_cases hz : charVal d = 0
      · have : d = '0' := charVal_zero_char hdd hz
        rw [hdv, hz, this]; rfl
      · rw [hdv, natDigits, if_neg hz, natDigitsAux, if_neg hz]
        have h10 : charVal d < 10 := by have := charVal_le_nine hdd; omega
        have hlt : charVal d / 10 = 0 := Nat.div_eq_of_lt h10
        rw [hlt, natDigitsAux_zero, Nat.mod_eq_of_lt h10, digitChar_charVal hdd]
        rfl
    | cons y ys' =>
      set w := y :: ys' with hw
      have hwd : ∀ c ∈ w, c.isDigit = true := fun c hc => hd c (List.mem_append_left _ hc)
      have hdd : d.isDigit = true := hd d (List.mem_append_right _ (by simp))
      have hyz : y ≠ '0' := by
        rcases hcanon with h | h
        · intro he
          apply h
          rw [hw, List.head?_append_of_ne_nil]
          · rw [he]; rfl
          · simp
        · exfalso
          have : (w ++ [d]).length = 1 := by rw [h]; rfl
          simp [hw] at this
      have hn : digitsVal (w ++ [d]) = 10 * digitsVal w + charVal d := by
        rw [digitsVal_append]
        have : digitsVal [d] = charVal d := by
          rw [show [d] = d :: ([] : List Char) from rfl, digitsVal_cons]
          simp [digitsVal]
        rw [this]
        simp
        ring
      have hwge : 1 ≤ digitsVal w := by
        have hge := @digitsVal_head_ge y ys' (hwd y (by simp [hw])) hyz
        rw [← hw] at hge
        have h2 : 1 ≤ 10 ^ ys'.length := Nat.one_le_pow _ _ (by norm_num)
        omega
      have hcd : charVal d < 10 := by have := charVal_le_nine hdd; omega
      have hnz : digitsVal (w ++ [d]) ≠ 0 := by omega
      rw [natDigits, if_neg hnz, natDigitsAux, if_neg hnz]
      have hdiv : digitsVal (w ++ [d]) / 10 = digitsVal w := by omega
      have hmod : digitsVal (w ++ [d]) % 10 = charVal d := by omega
      rw [hdiv, hmod, digitChar_charVal hdd]
      have hih : natDigits (digitsVal w) = w :=
        ih hwd (by simp [hw]) (Or.inl (by rw [hw]; simpa using hyz))
      have hwnz : digitsVal w ≠ 0 := by omega
      have hfuel : digitsVal w < 10 ^ (digitsVal (w ++ [d])) := by
        have h1 : digitsVal w < 10 ^ (digitsVal w + 1) := lt_ten_pow_succ_self _
        have h2 : digitsVal w + 1 ≤ digitsVal (w ++ [d]) := by omega
        exact lt_of_lt_of_le h1 (Nat.pow_le_pow_right (by norm_num) h2)
      have hstep : natDigitsAux (digitsVal (w ++ [d])) (digitsVal w) = w := by
        rw [natDigitsAux_congr hfuel (lt_ten_pow_succ_self _)]
        have hnd : natDigits (digitsVal w) = natDigitsAux (digitsVal w + 1) (digitsVal w) := by
          rw [natDigits, if_neg hwnz]
        rw [← hnd, hih]
      rw [hstep]

/-! ### Evaluating the parser on structured inputs -/

theorem dropWhile_eq_self_of_none {l : List Char} (h : ∀ c ∈ l, isWs c = false) :
    l.dropWhile isWs = l := by
  cases l with
  | nil => rfl
  | cons c t =>
    rw [List.dropWhile_cons, h c (List.mem_cons_self c t)]
    simp

theorem trimChars_eq_self {l : List Char} (h : ∀ c ∈ l, isWs c = false) :
    trimChars l = l := by
  unfold trimChars
  rw [dropWhile_eq_self_of_none h,
    dropWhile_eq_self_of_none (fun c hc => h c (List.mem_reverse.mp hc)), List.reverse_reverse]

theorem map_commaToDot_eq_self {l : List Char} (h : ∀ c ∈ l, c ≠ ',') :
    l.map commaToDot = l := by
  have : ∀ c ∈ l, commaToDot c = c := fun c hc => by
    unfold commaToDot
    rw [if_neg (h c hc)]
  rw [List.map_congr_left this]
  simp

theorem splitDot_of_not_mem {l : List Char} (h : '.' ∉ l) : splitDot l = [l] := by
  induction l with
  | nil => rfl
  | cons c t ih =>
    have hc : c ≠ '.' := fun he => h (he ▸ List.mem_cons_self c t)
    have ht : '.' ∉ t := fun hm => h (List.mem_cons_of_mem c hm)
    rw [splitDot, if_neg hc, ih ht]

theorem splitDot_append {w r : List Char} (h : '.' ∉ w) :
    splitDot (w ++ '.' :: r) = w :: splitDot r := by
  induction w with
  | nil =>
    rw [List.nil_append, splitDot, if_pos rfl]
  | cons c t ih =>
    have hc : c ≠ '.' := fun he => h (he ▸ List.mem_cons_self c t)
    have ht : '.' ∉ t := fun hm => h (List.mem_cons_of_mem c hm)
    rw [List.cons_append, splitDot, if_neg hc, ih ht]

theorem rustParseI64_digits {l : List Char} (hne : l ≠ [])
    (hd : ∀ c ∈ l, c.isDigit = true) (hb : (digitsVal l : Int) ≤ 2 ^ 63 - 1) :
    rustParseI64 l = some ((digitsVal l : Int)) := by
  cases l with
  | nil => exact absurd rfl hne
  | cons c rest =>
    have hc : c.isDigit = true := hd c (List.mem_cons_self c rest)
    have hminus : c ≠ '-' := ne_of_isDigit hc (Or.inl (by decide))
    have hplus : c ≠ '+' := ne_of_isDigit hc (Or.inl (by decide))
    rw [rustParseI64]
    simp only [if_neg hminus, if_neg hplus]
    rw [if_pos ⟨List.cons_ne_nil c rest, List.all_eq_true.mpr fun x hx => hd x hx⟩,
      if_pos ⟨by omega, by simpa using hb⟩]
    simp

theorem parse_amount_two_parts {w f : List Char} {sep : Char}
    (hw : w ≠ []) (hwd : ∀ c ∈ w, c.isDigit = true)
    (hfd : ∀ c ∈ f, c.isDigit = true) (hfl : f.length ≤ 2)
    (hsep : sep = '.' ∨ sep = ',')
    (hb : 100 * (digitsVal w : Int) + digitsVal (f ++ List.replicate (2 - f.length) '0')
      ≤ 2 ^ 63 - 1) :
    parse_amount_to_cents (String.mk (w ++ sep :: f)) =
      some (100 * (digitsVal w : Int) + digitsVal (f ++ List.replicate (2 - f.length) '0')) := by
  set padded := f ++ List.replicate (2 - f.length) '0' with hpad
  have hsepd : sep.toNat = 46 ∨ sep.toNat = 44 := by
    rcases hsep with h | h <;> rw [h]
    · exact Or.inl rfl
    · exact Or.inr rfl
  have hnows : ∀ c ∈ w ++ sep :: f, isWs c = false := by
    intro c hc
    rcases List.mem_append.mp hc with h | h
    · exact isWs_eq_false_of_isDigit (hwd c h)
    · rcases List.mem_cons.mp h with h | h
      · subst h; exact isWs_eq_false (by omega)
      · exact isWs_eq_false_of_isDigit (hfd c h)
  have hdata : (String.mk (w ++ sep :: f)).data = w ++ sep :: f := rfl
  rw [parse_amount_to_cents]
  simp only [hdata]
  rw [trimChars_eq_self hnows]
  have hne2 : w ++ sep :: f ≠ [] := by simp [List.append_eq_nil]
  rw [if_neg hne2]
  have hhead : (w ++ sep :: f).head? ≠ some '-' := by
    cases w with
    | nil => exact absurd rfl hw
    | cons c t =>
      have hc : c.isDigit = true := hwd c (List.mem_cons_self c t)
      simp only [List.cons_append, List.head?_cons]
      intro he
      exact ne_of_isDigit hc (Or.inl (by decide)) (Option.some.inj he)
  rw [if_neg hhead]
  have hmap : (w ++ sep :: f).map commaToDot = w ++ '.' :: f := by
    rw [List.map_append, List.map_cons,
      map_commaToDot_eq_self (fun c hc => ne_of_isDigit (hwd c hc) (Or.inl (by decide))),
      map_commaToDot_eq_self (fun c hc => ne_of_isDigit (hfd c hc) (Or.inl (by decide)))]
    rcases hsep with h | h <;> rw [h] <;> rfl
  rw [hmap]
  have hdotw : '.' ∉ w := fun hm => ne_of_isDigit (hwd '.' hm) (Or.inl (by decide)) rfl
  have hdotf : '.' ∉ f := fun hm => ne_of_isDigit (hfd '.' hm) (Or.inl (by decide)) rfl
  rw [splitDot_append hdotw, splitDot_of_not_mem hdotf]
  have hpadd : ∀ c ∈ padded, c.isDigit = true := by
    intro c hc
    rcases List.mem_append.mp hc with h | h
    · exact hfd c h
    · rw [List.eq_of_mem_replicate h]; decide
  have hpadne : padded ≠ [] := by
    rcases Nat.eq_or_lt_of_le hfl with h | h
    · cases f with
      | nil => simp at h
      | cons a b => simp [hpad]
    · have : 0 < (List.replicate (2 - f.length) '0').length := by
        rw [List.length_replicate]; omega
      intro he
      rw [hpad] at he
      simp [List.append_eq_nil] at he
      omega
  have hpv : (digitsVal padded : Int) ≤ 2 ^ 63 - 1 := by omega
  have hwv : (digitsVal w : Int) ≤ 2 ^ 63 - 1 := by omega
  simp only [rustParseI64_digits hw hwd hwv]
  rw [if_neg (by omega : ¬ 2 < f.length)]
  rw [← hpad, rustParseI64_digits hpadne hpadd hpv]
  have hwrap1 : wrap64 ((digitsVal w : Int) * 100) = (digitsVal w : Int) * 100 := by
    unfold wrap64
    rw [Int.emod_eq_of_lt (by omega) (by omega)]
    omega
  have hwrap2 : wrap64 ((digitsVal w : Int) * 100 + (digitsVal padded : Int)) =
      (digitsVal w : Int) * 100 + (digitsVal padded : Int) := by
    unfold wrap64
    rw [Int.emod_eq_of_lt (by omega) (by omega)]
    omega
  rw [Option.map_some', hwrap1, hwrap2]
  exact congrArg some (by ring)

theorem parse_amount_one_part {w : List Char}
    (hw : w ≠ []) (hwd : ∀ c ∈ w, c.isDigit = true)
    (hb : 100 * (digitsVal w : Int) ≤ 2 ^ 63 - 1) :
    parse_amount_to_cents (String.mk w) = some (100 * (digitsVal w : Int)) := by
  have hnows : ∀ c ∈ w, isWs c = false := fun c hc => isWs_eq_false_of_isDigit (hwd c hc)
  have hdata : (String.mk w).data = w := rfl
  rw [parse_amount_to_cents]
  simp only [hdata]
  rw [trimChars_eq_self hnows, if_neg hw]
  have hhead : w.head? ≠ some '-' := by
    cases w with
    | nil => exact absurd rfl hw
    | cons c t =>
      simp only [List.head?_cons]
      intro he
      exact ne_of_isDigit (hwd c (List.mem_cons_self c t)) (Or.inl (by decide))
        (Option.some.inj he)
  rw [if_neg hhead]
  rw [map_commaToDot_eq_self (fun c hc => ne_of_isDigit (hwd c hc) (Or.inl (by decide)))]
  have hdotw : '.' ∉ w := fun hm => ne_of_isDigit (hwd '.' hm) (Or.inl (by decide)) rfl
  rw [splitDot_of_not_mem hdotw]
  have hwv : (digitsVal w : Int) ≤ 2 ^ 63 - 1 := by omega
  simp only [rustParseI64_digits hw hwd hwv]
  have hwrap1 : wrap64 ((digitsVal w : Int) * 100) = (digitsVal w : Int) * 100 := by
    unfold wrap64
    rw [Int.emod_eq_of_lt (by omega) (by omega)]
    omega
  rw [Option.map_some', hwrap1]
  have hwrap2 : wrap64 ((digitsVal w : Int) * 100 + 0) = (digitsVal w : Int) * 100 := by
    unfold wrap64
    rw [add_zero, Int.emod_eq_of_lt (by omega) (by omega)]
    omega
  rw [hwrap2]
  exact congrArg some (by ring)

/-! ### Evaluating the formatter -/

theorem wrap64_id {x : Int} (h0 : 0 ≤ x) (h1 : x < 2 ^ 63) : wrap64 x = x := by
  unfold wrap64
  rw [Int.emod_eq_of_lt (by omega) (by omega)]
  omega

theorem tdiv_natCast (a b : Nat) : ((a : Int)).tdiv (b : Int) = ((a / b : Nat) : Int) := rfl

theorem tmod_natCast (a b : Nat) : ((a : Int)).tmod (b : Int) = ((a % b : Nat) : Int) := rfl

theorem tdiv_cast100 (a : Nat) : ((a : Int)).tdiv 100 = ((a / 100 : Nat) : Int) := rfl

theorem tmod_cast100 (a : Nat) : ((a : Int)).tmod 100 = ((a % 100 : Nat) : Int) := rfl

theorem rustPad2Int_natCast (n : Nat) :
    rustPad2Int (n : Int) =
      List.replicate (2 - (natDigits n).length) '0' ++ natDigits n := by
  unfold rustPad2Int
  rw [if_neg (by omega : ¬ (n : Int) < 0)]
  simp [Int.natAbs_ofNat]

theorem natDigits_single {n : Nat} (h0 : n ≠ 0) (h : n < 10) : natDigits n = [digitChar n] := by
  rw [natDigits, if_neg h0, natDigitsAux, if_neg h0, Nat.div_eq_of_lt h, natDigitsAux_zero,
    Nat.mod_eq_of_lt h]
  rfl

theorem rustPad2Int_length {n : Nat} (h : n ≤ 99) : (rustPad2Int (n : Int)).length = 2 := by
  rw [rustPad2Int_natCast, List.length_append, List.length_replicate]
  have h1 : (natDigits n).length ≤ 2 :=
    natDigits_length_le (by omega : n < 10 ^ 2) (by norm_num)
  have h2 : natDigits n ≠ [] := natDigits_ne_nil n
  have h3 : 1 ≤ (natDigits n).length := List.length_pos.mpr h2
  omega

theorem rustPad2Int_digits {n : Nat} {c : Char} (hc : c ∈ rustPad2Int (n : Int)) :
    c.isDigit = true := by
  rw [rustPad2Int_natCast] at hc
  rcases List.mem_append.mp hc with h | h
  · rw [List.eq_of_mem_replicate h]; decide
  · exact natDigits_digits h

theorem rustPad2Int_val (n : Nat) : digitsVal (rustPad2Int (n : Int)) = n := by
  rw [rustPad2Int_natCast, digitsVal_append, digitsVal_replicate_zero, natDigits_val]
  simp

theorem rustPad2Int_two_digits {g : List Char} (hd : ∀ c ∈ g, c.isDigit = true)
    (hl : g.length = 2) : rustPad2Int ((digitsVal g : Nat) : Int) = g := by
  match g, hl with
  | [a, b], _ =>
    have ha : a.isDigit = true := hd a (by simp)
    have hb : b.isDigit = true := hd b (by simp)
    have hvab : digitsVal [a, b] = 10 * charVal a + charVal b := by
      rw [digitsVal_cons, digitsVal_cons]
      simp [digitsVal]
      ring
    by_cases haz : charVal a = 0
    · have ha0 : a = '0' := charVal_zero_char ha haz
      rw [hvab, haz]
      simp only [Nat.mul_zero, Nat.zero_add]
      by_cases hbz : charVal b = 0
      · have hb0 : b = '0' := charVal_zero_char hb hbz
        rw [hbz, ha0, hb0]
        decide
      · have hblt : charVal b < 10 := by have := charVal_le_nine hb; omega
        rw [rustPad2Int_natCast, natDigits_single hbz hblt, digitChar_charVal hb, ha0]
        rfl
    · have hane : a ≠ '0' := fun he => haz (by rw [he]; rfl)
      have hcanon : natDigits (digitsVal [a, b]) = [a, b] :=
        natDigits_unique hd (by simp) (Or.inl (by simp; exact hane))
      rw [rustPad2Int_natCast, hcanon]
      rfl

theorem format_money_eq {c : Int} (h1 : -(2 ^ 63) < c) (h2 : c < 2 ^ 63) :
    format_money c = String.mk ((if c < 0 then ['-'] else []) ++
      natDigits (c.natAbs / 100) ++ '.' :: rustPad2Int ((c.natAbs % 100 : Nat) : Int)) := by
  have habs : (c.natAbs : Int) < 2 ^ 63 := by
    rcases Int.natAbs_eq c with he | he <;> omega
  show String.mk ((if c < 0 then ['-'] else []) ++
      rustDisplayInt ((wrap64 (c.natAbs : Int)).tdiv 100) ++
      '.' :: rustPad2Int ((wrap64 (c.natAbs : Int)).tmod 100)) = _
  rw [wrap64_id (by omega) habs, tdiv_cast100, tmod_cast100]
  have hdisp : rustDisplayInt ((c.natAbs / 100 : Nat) : Int) = natDigits (c.natAbs / 100) := by
    unfold rustDisplayInt
    rw [if_neg (by omega : ¬ ((c.natAbs / 100 : Nat) : Int) < 0)]
    rw [List.nil_append, Int.natAbs_ofNat]
  rw [hdisp]

theorem format_money_natCast {v : Nat} (h : v < 2 ^ 63) :
    format_money (v : Int) =
      String.mk (natDigits (v / 100) ++ '.' :: rustPad2Int ((v % 100 : Nat) : Int)) := by
  rw [format_money_eq (by omega) (by omega)]
  rw [if_neg (by omega : ¬ (v : Int) < 0)]
  simp [Int.natAbs_ofNat]

/-! ### Sorting (the ORDER BY model) -/

theorem insertBy_perm (le : α → α → Bool) (x : α) (l : List α) :
    (insertBy le x l).Perm (x :: l) := by
  induction l with
  | nil => exact List.Perm.refl _
  | cons y ys ih =>
    rw [insertBy]
    by_cases h : le x y = true
    · rw [if_pos h]
    · rw [if_neg h]
      exact (List.Perm.cons y ih).trans (List.Perm.swap x y ys)

theorem sortBy_perm (le : α → α → Bool) (l : List α) : (sortBy le l).Perm l := by
  induction l with
  | nil => exact List.Perm.refl _
  | cons x xs ih =>
    exact (insertBy_perm le x _).trans (List.Perm.cons x ih)

theorem mem_sortBy {le : α → α → Bool} {x : α} {l : List α} :
    x ∈ sortBy le l ↔ x ∈ l :=
  (sortBy_perm le l).mem_iff

theorem mem_insertBy {le : α → α → Bool} {x y : α} {l : List α} :
    y ∈ insertBy le x l ↔ y = x ∨ y ∈ l := by
  rw [(insertBy_perm le x l).mem_iff, List.mem_cons]

theorem insertBy_pairwise_trans {le : α → α → Bool}
    (htot : ∀ a b, le a b = true ∨ le b a = true)
    (htrans : ∀ a b c, le a b = true → le b c = true → le a c = true) {x : α} {l : List α}
    (hl : l.Pairwise fun a b => le a b = true) :
    (insertBy le x l).Pairwise fun a b => le a b = true := by
  induction l with
  | nil => simp [insertBy]
  | cons y ys ih =>
    rw [insertBy]
    rcases List.pairwise_cons.mp hl with ⟨hy, hys⟩
    by_cases h : le x y = true
    · rw [if_pos h]
      refine List.pairwise_cons.mpr ⟨?_, hl⟩
      intro z hz
      rcases List.mem_cons.mp hz with hz | hz
      · rw [hz]; exact h
      · exact htrans x y z h (hy z hz)
    · rw [if_neg h]
      have hyx : le y x = true := (htot x y).resolve_left h
      refine List.pairwise_cons.mpr ⟨?_, ih hys⟩
      intro z hz
      rcases mem_insertBy.mp hz with hz | hz
      · rw [hz]; exact hyx
      · exact hy z hz

theorem sortBy_pairwise {le : α → α → Bool}
    (htot : ∀ a b, le a b = true ∨ le b a = true)
    (htrans : ∀ a b c, le a b = true → le b c = true → le a c = true) (l : List α) :
    (sortBy le l).Pairwise fun a b => le a b = true := by
  induction l with
  | nil => simp [sortBy]
  | cons x xs ih => exact insertBy_pairwise_trans htot htrans ih

theorem charsLe_total (a b : List Char) : charsLe a b = true ∨ charsLe b a = true := by
  induction a generalizing b with
  | nil => exact Or.inl rfl
  | cons x xs ih =>
    cases b with
    | nil => exact Or.inr rfl
    | cons y ys =>
      rw [charsLe, charsLe]
      rcases Nat.lt_trichotomy x.toNat y.toNat with h | h | h
      · left
        rw [if_pos h]
      · rw [if_neg (by omega), if_neg (by omega), if_neg (by omega), if_neg (by omega)]
        exact ih ys
      · right
        rw [if_pos h]

theorem charsLe_trans {a b c : List Char} (h1 : charsLe a b = true) (h2 : charsLe b c = true) :
    charsLe a c = true := by
  induction a generalizing b c with
  | nil => rfl
  | cons x xs ih =>
    cases b with
    | nil => exact absurd h1 (by rw [charsLe]; simp)
    | cons y ys =>
      cases c with
      | nil => exact absurd h2 (by rw [charsLe]; simp)
      | cons z zs =>
        rw [charsLe] at h1 h2 ⊢
        rcases Nat.lt_trichotomy x.toNat y.toNat with hxy | hxy | hxy
        · rcases Nat.lt_trichotomy y.toNat z.toNat with hyz | hyz | hyz
          · rw [if_pos (by omega : x.toNat < z.toNat)]
          · rw [if_pos (by omega : x.toNat < z.toNat)]
          · rw [if_neg (by omega), if_pos (by omega)] at h2
            exact absurd h2 (by simp)
        · rcases Nat.lt_trichotomy y.toNat z.toNat with hyz | hyz | hyz
          · rw [if_pos (by omega : x.toNat < z.toNat)]
          · rw [if_neg (by omega), if_neg (by omega)] at h1
            rw [if_neg (by omega), if_neg (by omega)] at h2
            rw [if_neg (by omega), if_neg (by omega)]
            exact ih h1 h2
          · rw [if_neg (by omega), if_pos (by omega)] at h2
            exact absurd h2 (by simp)
        · rw [if_neg (by omega), if_pos (by omega)] at h1
          exact absurd h1 (by simp)

/-! ### Claims -/

/-- C10: `parse_amount_to_cents` accepts `"100000000000000000"` (the whole
part fits in `i64`), but `whole * 100` overflows and wraps modulo `2^64`
under release semantics, so the returned cent value is the wrapped
`-8446744073709551616` instead of the mathematical `10^19`. -/
theorem c10_parse_overflow_wraps :
    parse_amount_to_cents "100000000000000000" = some (-8446744073709551616) ∧
    wrap64 ((100000000000000000 : Int) * 100) = -8446744073709551616 ∧
    (-8446744073709551616 : Int) ≠ 100 * 100000000000000000 + 0 :=
  ⟨by decide, by decide, by decide⟩

/-- C4: an uploaded file is persisted iff the transaction kind is
`"expense"` and the category name, trimmed and lowercased, equals `"жкх"`;
in every other case the gate silently discards the upload (`Ok(None)`).
The listed concrete category/kind combinations behave as the spec says. -/
theorem c4_receipt_gate :
    (∀ (hasFile : Bool) (category_name : Option String) (kind : String),
      persist_receipt_persists hasFile category_name kind = true ↔
        (hasFile = true ∧ kind = "expense" ∧
          ∃ n, category_name = some n ∧ is_receipt_category n = true)) ∧
    persist_receipt_persists true (some "ЖКХ") "expense" = true ∧
    persist_receipt_persists true (some "жкх") "expense" = true ∧
    persist_receipt_persists true (some " ЖКХ ") "expense" = true ∧
    persist_receipt_persists true (some "ЖКХ") "income" = false := by
  refine ⟨?_, by decide, by decide, by decide, by decide⟩
  intro hasFile category_name kind
  cases hasFile with
  | false => simp [persist_receipt_persists]
  | true =>
    cases category_name with
    | none => simp [persist_receipt_persists]
    | some n =>
      by_cases hk : kind = "expense" <;> by_cases hr : is_receipt_category n = true <;>
        simp [persist_receipt_persists, hk, hr]

/-- C5: in both `budget_view` and `dashboard_budget_view`, an allocation of
zero yields `percent = 0` regardless of the spent amount (the guard runs
before any division, so no division-by-zero failure is possible), and a
nonzero allocation yields `round(spent / allocated * 100)` with halves
rounded away from zero. -/
theorem c5_percent_guard :
    ∀ (r : BudgetRecord) (d : DashboardBudget),
      (r.amount_cents = 0 → (budget_view r).percent = 0) ∧
      (r.amount_cents ≠ 0 → (budget_view r).percent =
        roundHalfAway ((r.spent_cents : ℚ) / (r.amount_cents : ℚ) * 100)) ∧
      (d.budget_cents = 0 → (dashboard_budget_view d).percent = 0) ∧
      (d.budget_cents ≠ 0 → (dashboard_budget_view d).percent =
        roundHalfAway ((d.spent_cents : ℚ) / (d.budget_cents : ℚ) * 100)) := by
  intro r d
  refine ⟨fun h => ?_, fun h => ?_, fun h => ?_, fun h => ?_⟩ <;>
    simp [budget_view, dashboard_budget_view, h]

/-- Witness for C5 at concrete records with a zero allocation. -/
theorem c5_percent_guard_witness :
    (budget_view ⟨1, 1, "Food", "2024-01", 0, 700⟩).percent = 0 ∧
    (dashboard_budget_view ⟨"Food", 0, 700, -700⟩).percent = 0 :=
  ⟨(c5_percent_guard ⟨1, 1, "Food", "2024-01", 0, 700⟩ ⟨"Food", 0, 700, -700⟩).1 rfl,
   (c5_percent_guard ⟨1, 1, "Food", "2024-01", 0, 700⟩ ⟨"Food", 0, 700, -700⟩).2.2.1 rfl⟩

/-- C6: `month_totals` returns the pair of income and expense sums over the
transactions whose occurrence date lies in the month; when no transaction
matches, both components are zero, and on the end-to-end scenario it
returns `(10000, 500)`. -/
theorem c6_month_totals :
    (∀ (txns : List Txn) (month : String),
      (∀ t ∈ txns, likeMonth month t.occurred_on = false) →
      month_totals txns month = (0, 0)) ∧
    month_totals scenarioTxns "2024-01" = (10000, 500) := by
  refine ⟨?_, by decide⟩
  intro txns month h
  unfold month_totals
  have h1 : (txns.filter fun t => t.kind == "income" && likeMonth month t.occurred_on) = [] :=
    List.filter_eq_nil_iff.mpr fun t ht => by simp [h t ht]
  have h2 : (txns.filter fun t => t.kind == "expense" && likeMonth month t.occurred_on) = [] :=
    List.filter_eq_nil_iff.mpr fun t ht => by simp [h t ht]
  rw [h1, h2]
  rfl

/-- Witness for C6 at a month with no matching transactions. -/
theorem c6_month_totals_witness : month_totals scenarioTxns "2023-12" = (0, 0) :=
  c6_month_totals.1 scenarioTxns "2023-12" (by decide)

/-- Counterexample for C9: at `i64::MIN` the wrapped absolute value is
negative, so the rendered string `"--92233720368547758.-8"` carries two
signs and a non-digit fractional part — it is not of the claimed shape
sign-prefix, whole part, dot, two zero-padded fractional digits. -/
theorem c9_format_money_counterexample :
    format_money (-9223372036854775808) = "--92233720368547758.-8" ∧
    ∀ (w frac : List Char), (∀ c ∈ w, c.isDigit = true) → frac.length = 2 →
      format_money (-9223372036854775808) ≠ String.mk ('-' :: (w ++ '.' :: frac)) := by
  refine ⟨by decide, ?_⟩
  intro w frac hw hl he
  have hval : format_money (-9223372036854775808) = ("--92233720368547758.-8" : String) := by
    decide
  have hdata : ('-' :: (w ++ '.' :: frac)) = ("--92233720368547758.-8" : String).data :=
    congrArg String.data (he.symm.trans hval)
  have hlit : ("--92233720368547758.-8" : String).data =
      '-' :: ("-92233720368547758.-8" : String).data := rfl
  rw [hlit] at hdata
  have h2 : w ++ '.' :: frac = ("-92233720368547758.-8" : String).data :=
    (List.cons.injEq _ _ _ _ ▸ hdata).2
  cases w with
  | nil =>
    rw [List.nil_append] at h2
    have : '.' = '-' := (List.cons.injEq _ _ _ _ ▸ h2).1
    exact absurd this (by decide)
  | cons c t =>
    rw [List.cons_append] at h2
    have hc : c = '-' := (List.cons.injEq _ _ _ _ ▸ h2).1
    exact ne_of_isDigit (hw c (List.mem_cons_self c t)) (Or.inl (by decide)) hc

/-- C9 amended: for every `i64` value except `i64::MIN` (whose absolute
value overflows), `format_money` renders a sign prefix only for negative
values, then the decimal whole part `|c| / 100`, a dot, and exactly two
zero-padded fractional digits whose value is `|c| % 100`; in particular
`format_money (-150) = "-1.50"` and `format_money 0 = "0.00"`. -/
theorem c9_format_money_structure :
    (∀ c : Int, -(2 ^ 63) < c → c < 2 ^ 63 →
      format_money c = String.mk ((if c < 0 then ['-'] else []) ++
          natDigits (c.natAbs / 100) ++ '.' :: rustPad2Int ((c.natAbs % 100 : Nat) : Int)) ∧
        (rustPad2Int ((c.natAbs % 100 : Nat) : Int)).length = 2 ∧
        (∀ ch ∈ rustPad2Int ((c.natAbs % 100 : Nat) : Int), ch.isDigit = true) ∧
        digitsVal (rustPad2Int ((c.natAbs % 100 : Nat) : Int)) = c.natAbs % 100 ∧
        digitsVal (natDigits (c.natAbs / 100)) = c.natAbs / 100) ∧
    format_money (-150) = "-1.50" ∧ format_money 0 = "0.00" := by
  refine ⟨?_, by decide, by decide⟩
  intro c h1 h2
  exact ⟨format_money_eq h1 h2,
    rustPad2Int_length (Nat.le_of_lt_succ (Nat.mod_lt _ (by norm_num))),
    fun ch hch => rustPad2Int_digits hch, rustPad2Int_val _, natDigits_val _⟩

/-- Witness for C9 at `-150`. -/
theorem c9_format_money_structure_witness :
    format_money (-150) = String.mk ((if (-150 : Int) < 0 then ['-'] else []) ++
      natDigits ((-150 : Int).natAbs / 100) ++ '.' ::
        rustPad2Int ((((-150 : Int).natAbs % 100 : Nat) : Int))) :=
  (c9_format_money_structure.1 (-150) (by decide) (by decide)).1

/-- Counterexample for C1: `"100000000000000000"` is a valid unsigned
decimal string with no separator, yet parsing it overflows `i64` and the
formatted result `"-84467440737095516.16"` does not reproduce the original
value (which would render as `"100000000000000000.00"`). -/
theorem c1_roundtrip_counterexample :
    parse_amount_to_cents "100000000000000000" = some (-8446744073709551616) ∧
    format_money (-8446744073709551616) = "-84467440737095516.16" ∧
    ("-84467440737095516.16" : String) ≠ "100000000000000000.00" :=
  ⟨by decide, by decide, by decide⟩

/-- C1 amended: for every decimal string built from a nonempty digit whole
part, an optional `'.'` or `','` separator, and at most two fractional
digits, whose cent value fits in `i64` (no overflow), parsing yields
exactly `100 * whole + frac`, and formatting that value back yields the
canonical whole digits, a dot, and the fractional digits zero-padded to
width two — the original string up to fractional zero-padding (and comma
normalisation) whenever the whole part has no leading zeros. -/
theorem c1_roundtrip_amended (w f : List Char) (sep : Char)
    (hw : w ≠ []) (hwd : ∀ c ∈ w, c.isDigit = true)
    (hfd : ∀ c ∈ f, c.isDigit = true) (hfl : f.length ≤ 2)
    (hsep : sep = '.' ∨ sep = ',')
    (hb : 100 * (digitsVal w : Int) +
      (digitsVal (f ++ List.replicate (2 - f.length) '0') : Int) ≤ 2 ^ 63 - 1) :
    parse_amount_to_cents (String.mk (w ++ sep :: f)) =
      some (100 * (digitsVal w : Int) +
        (digitsVal (f ++ List.replicate (2 - f.length) '0') : Int)) ∧
    parse_amount_to_cents (String.mk w) = some (100 * (digitsVal w : Int)) ∧
    format_money (100 * (digitsVal w : Int) +
        (digitsVal (f ++ List.replicate (2 - f.length) '0') : Int)) =
      String.mk (natDigits (digitsVal w) ++ '.' :: (f ++ List.replicate (2 - f.length) '0')) ∧
    format_money (100 * (digitsVal w : Int)) =
      String.mk (natDigits (digitsVal w) ++ '.' :: ['0', '0']) ∧
    (w.head? ≠ some '0' ∨ w = ['0'] → natDigits (digitsVal w) = w) := by
  set padded := f ++ List.replicate (2 - f.length) '0' with hpad
  have hpadd : ∀ c ∈ padded, c.isDigit = true := by
    intro c hc
    rcases List.mem_append.mp hc with h | h
    · exact hfd c h
    · rw [List.eq_of_mem_replicate h]; decide
  have hplen : padded.length = 2 := by
    rw [hpad, List.length_append, List.length_replicate]
    omega
  have hpval : digitsVal padded < 100 := by
    have := digitsVal_lt hpadd
    rw [hplen] at this
    exact this
  have hbw : 100 * (digitsVal w : Int) ≤ 2 ^ 63 - 1 := by omega
  refine ⟨parse_amount_two_parts hw hwd hfd hfl hsep hb,
    parse_amount_one_part hw hwd hbw, ?_, ?_, ?_⟩
  · have hcast : (100 * (digitsVal w : Int) + (digitsVal padded : Int)) =
        ((100 * digitsVal w + digitsVal padded : Nat) : Int) := by push_cast; ring
    rw [hcast, format_money_natCast (by omega)]
    have hdiv : (100 * digitsVal w + digitsVal padded) / 100 = digitsVal w := by omega
    have hmod : (100 * digitsVal w + digitsVal padded) % 100 = digitsVal padded := by omega
    rw [hdiv, hmod, rustPad2Int_two_digits hpadd hplen]
  · have hcast : (100 * (digitsVal w : Int)) = ((100 * digitsVal w : Nat) : Int) := by
      push_cast; ring
    rw [hcast, format_money_natCast (by omega)]
    have hdiv : (100 * digitsVal w) / 100 = digitsVal w := by omega
    have hmod : (100 * digitsVal w) % 100 = 0 := by omega
    rw [hdiv, hmod]
    have : rustPad2Int ((0 : Nat) : Int) = ['0', '0'] := by decide
    rw [this]
  · intro hcanon
    exact natDigits_unique hwd hw hcanon

/-- Witness for C1 at `"12.5"`: it parses to 1250 cents and formats back as
`"12.50"`. -/
theorem c1_roundtrip_amended_witness :
    parse_amount_to_cents "12.5" = some 1250 ∧ format_money 1250 = "12.50" := by
  have h := c1_roundtrip_amended ['1', '2'] ['5'] '.' (by decide) (by decide) (by decide)
    (by decide) (Or.inl rfl) (by decide)
  obtain ⟨h1, _, h3, _, _⟩ := h
  have e1 : String.mk (['1', '2'] ++ '.' :: ['5']) = "12.5" := rfl
  have e2 : 100 * (digitsVal ['1', '2'] : Int) +
      (digitsVal (['5'] ++ List.replicate (2 - (['5'] : List Char).length) '0') : Int) =
      1250 := by decide
  have e3 : String.mk (natDigits (digitsVal ['1', '2']) ++
      '.' :: (['5'] ++ List.replicate (2 - (['5'] : List Char).length) '0')) = "12.50" := by
    decide
  rw [e1, e2] at h1
  rw [e2, e3] at h3
  exact ⟨h1, h3⟩

theorem all_isDigit_false {l : List Char} {ch : Char} (hm : ch ∈ l) (hd : ch.isDigit = false) :
    l.all Char.isDigit = false := by
  cases hall : l.all Char.isDigit
  · rfl
  · have h2 := List.all_eq_true.mp hall ch hm
    rw [hd] at h2
    exact absurd h2 (by decide)

theorem rustParseI64_none_of_bad_tail {c : Char} {rest : List Char} {ch : Char}
    (hm : ch ∈ rest) (hd : ch.isDigit = false) : rustParseI64 (c :: rest) = none := by
  have ha1 : rest.all Char.isDigit = false := all_isDigit_false hm hd
  have ha2 : (c :: rest).all Char.isDigit = false :=
    all_isDigit_false (List.mem_cons_of_mem c hm) hd
  simp only [rustParseI64]
  by_cases h1 : c = '-'
  · simp [h1, ha1]
  · by_cases h2 : c = '+'
    · simp [h1, h2, ha1]
    · simp [h1, h2, ha2]

theorem rustParseI64_none_of_bad_head {c : Char} {rest : List Char}
    (hd : c.isDigit = false) (h1 : c ≠ '-') (h2 : c ≠ '+') :
    rustParseI64 (c :: rest) = none := by
  have ha : (c :: rest).all Char.isDigit = false :=
    all_isDigit_false (List.mem_cons_self c rest) hd
  simp only [rustParseI64]
  simp [h1, h2, ha]

/-- Counterexample for C2: the parser is not non-digit-strict and not
limited to the listed violations — `"+5"` (non-digit `'+'` in the whole
part) is accepted as 500 cents because Rust's `i64` parser takes an
optional leading sign, and the all-digit `"99999999999999999999"` is
rejected (whole part exceeds `i64::MAX`) although it violates none of the
spec's listed conditions. -/
theorem c2_parse_failures_counterexample :
    parse_amount_to_cents "+5" = some 500 ∧
    parse_amount_to_cents "99999999999999999999" = none :=
  ⟨by decide, by decide⟩

/-- C2 amended: `parse_amount_to_cents` fails on the five listed inputs and,
in general, on: empty input after trimming; a leading `'-'`; more than one
decimal separator (three or more split parts); more than two fractional
digits; a whole part rejected by the `i64` parser (which also rejects
overflow); and any whole or fractional part containing a character that is
neither an ASCII digit nor an optional leading `'+'`/`'-'` sign (signed
parts such as `"+5"` or `"1.-5"` are accepted by the `i64` parser, so the
spec's blanket non-digit condition holds only away from a leading sign). -/
theorem c2_parse_failures_amended :
    parse_amount_to_cents "" = none ∧
    parse_amount_to_cents "-5" = none ∧
    parse_amount_to_cents "1.2.3" = none ∧
    parse_amount_to_cents "1.234" = none ∧
    parse_amount_to_cents "abc" = none ∧
    (∀ input : String, trimChars input.data = [] → parse_amount_to_cents input = none) ∧
    (∀ (input : String) (rest : List Char), trimChars input.data = '-' :: rest →
      parse_amount_to_cents input = none) ∧
    (∀ (input : String) (p1 p2 p3 : List Char) (ps : List (List Char)),
      splitDot ((trimChars input.data).map commaToDot) = p1 :: p2 :: p3 :: ps →
      parse_amount_to_cents input = none) ∧
    (∀ (input : String) (whole frac : List Char),
      splitDot ((trimChars input.data).map commaToDot) = [whole, frac] →
      2 < frac.length → parse_amount_to_cents input = none) ∧
    (∀ (input : String) (whole : List Char) (rest : List (List Char)),
      splitDot ((trimChars input.data).map commaToDot) = whole :: rest →
      rustParseI64 whole = none → parse_amount_to_cents input = none) ∧
    (∀ (c : Char) (rest : List Char) (ch : Char), ch ∈ rest → ch.isDigit = false →
      rustParseI64 (c :: rest) = none) ∧
    (∀ (c : Char) (rest : List Char), c.isDigit = false → c ≠ '-' → c ≠ '+' →
      rustParseI64 (c :: rest) = none) ∧
    (∀ (input : String) (whole frac : List Char) (ch : Char),
      splitDot ((trimChars input.data).map commaToDot) = [whole, frac] →
      ch ∈ frac.tail → ch.isDigit = false → parse_amount_to_cents input = none) ∧
    (∀ (input : String) (whole : List Char) (c : Char) (rest : List Char),
      splitDot ((trimChars input.data).map commaToDot) = [whole, c :: rest] →
      c.isDigit = false → c ≠ '-' → c ≠ '+' → parse_amount_to_cents input = none) := by
  refine ⟨by decide, by decide, by decide, by decide, by decide, ?_, ?_, ?_, ?_, ?_,
    fun c rest ch hm hd => rustParseI64_none_of_bad_tail hm hd,
    fun c rest hd h1 h2 => rustParseI64_none_of_bad_head hd h1 h2, ?_, ?_⟩
  · intro input h
    simp [parse_amount_to_cents, h]
  · intro input rest h
    simp [parse_amount_to_cents, h]
  · intro input p1 p2 p3 ps h
    by_cases hs : trimChars input.data = []
    · simp [parse_amount_to_cents, hs]
    · by_cases hh : (trimChars input.data).head? = some '-'
      · simp [parse_amount_to_cents, hs, hh]
      · simp [parse_amount_to_cents, hs, hh, h]
  · intro input whole frac h hlen
    by_cases hs : trimChars input.data = []
    · simp [parse_amount_to_cents, hs]
    · by_cases hh : (trimChars input.data).head? = some '-'
      · simp [parse_amount_to_cents, hs, hh]
      · cases hpw : rustParseI64 whole with
        | none => simp [parse_amount_to_cents, hs, hh, h, hpw]
        | some v => simp [parse_amount_to_cents, hs, hh, h, hpw, hlen]
  · intro input whole rest h hpw
    by_cases hs : trimChars input.data = []
    · simp [parse_amount_to_cents, hs]
    · by_cases hh : (trimChars input.data).head? = some '-'
      · simp [parse_amount_to_cents, hs, hh]
      · rcases rest with _ | ⟨f, _ | ⟨g, ps⟩⟩ <;> simp [parse_amount_to_cents, hs, hh, h, hpw]
  · intro input whole frac ch h hm hd
    by_cases hs : trimChars input.data = []
    · simp [parse_amount_to_cents, hs]
    · by_cases hh : (trimChars input.data).head? = some '-'
      · simp [parse_amount_to_cents, hs, hh]
      · cases hpw : rustParseI64 whole with
        | none => simp [parse_amount_to_cents, hs, hh, h, hpw]
        | some v =>
          by_cases hlen : 2 < frac.length
          · simp [parse_amount_to_cents, hs, hh, h, hpw, hlen]
          · cases frac with
            | nil => simp at hm
            | cons d t =>
              simp only [parse_amount_to_cents, hs, hh, h, hpw]
              simp [hlen]
              intro hf
              exact rustParseI64_none_of_bad_tail
                (List.mem_append_left _ (by simpa using hm)) hd
  · intro input whole c rest h hd h1 h2
    by_cases hs : trimChars input.data = []
    · simp [parse_amount_to_cents, hs]
    · by_cases hh : (trimChars input.data).head? = some '-'
      · simp [parse_amount_to_cents, hs, hh]
      · cases hpw : rustParseI64 whole with
        | none => simp [parse_amount_to_cents, hs, hh, h, hpw]
        | some v =>
          simp only [parse_amount_to_cents, hs, hh, h, hpw]
          by_cases hlen : 2 < rest.length + 1
          · simp [hlen]
          · simp [hlen]
            exact rustParseI64_none_of_bad_head hd h1 h2

/-- Witness for C2: a whitespace-only input fails via the empty-after-trim
condition, and `"1.2x"` fails via the non-digit fractional character. -/
theorem c2_parse_failures_amended_witness :
    parse_amount_to_cents " " = none ∧ parse_amount_to_cents "1.2x" = none := by
  obtain ⟨_, _, _, _, _, ha, _, _, _, _, _, _, hg1, _⟩ := c2_parse_failures_amended
  exact ⟨ha " " (by decide), hg1 "1.2x" ['1'] ['2', 'x'] 'x' (by decide) (by decide) (by decide)⟩

/-- A state with one budget for 2024-02 and no transactions at all. -/
def dbEmptyMonth : DB :=
  { categories := [{ id := 1, name := "Food", kind := "expense" }],
    transactions := [],
    budgets := [{ id := 1, category_id := 1, month := "2024-02", amount_cents := 1000 }] }

/-- C7: every budget row of the requested month whose category exists is
listed by `list_budgets` with its own id, category name and allocation, and
its `spent_cents` equals the sum of matching expense transactions — zero
(never a missing field) when no transaction matches. -/
theorem c7_budgets_for_month :
    ∀ (db : DB) (month : String) (b : Budget), b ∈ db.budgets → b.month = month →
      ∀ c ∈ db.categories, c.id = b.category_id →
      ∃ r ∈ list_budgets db month,
        r.id = b.id ∧ r.category_id = b.category_id ∧ r.category_name = c.name ∧
        r.month = b.month ∧ r.amount_cents = b.amount_cents ∧
        r.spent_cents = spentFor db.transactions b.category_id month ∧
        ((∀ t ∈ db.transactions, ¬(t.kind = "expense" ∧ t.category_id = some b.category_id ∧
            likeMonth month t.occurred_on = true)) → r.spent_cents = 0) := by
  intro db month b hb hbm c hc hcid
  refine ⟨⟨b.id, b.category_id, c.name, b.month, b.amount_cents,
    spentFor db.transactions b.category_id month⟩, ?_, rfl, rfl, rfl, rfl, rfl, rfl, ?_⟩
  · apply mem_sortBy.mpr
    apply List.mem_flatMap.mpr
    refine ⟨b, List.mem_filter.mpr ⟨hb, by simp [hbm]⟩, ?_⟩
    apply List.mem_map.mpr
    exact ⟨c, List.mem_filter.mpr ⟨hc, by simp [hcid]⟩, rfl⟩
  · intro hnone
    show spentFor db.transactions b.category_id month = 0
    unfold spentFor
    have hfil : (db.transactions.filter fun t =>
        t.category_id == some b.category_id && t.kind == "expense" &&
          likeMonth month t.occurred_on) = [] := by
      apply List.filter_eq_nil_iff.mpr
      intro t ht hcond
      simp only [Bool.and_eq_true, beq_iff_eq] at hcond
      exact hnone t ht ⟨hcond.1.2, hcond.1.1, hcond.2⟩
    rw [hfil]
    rfl

/-- Witness for C7: the single 2024-02 budget of `dbEmptyMonth` is listed
with `spent_cents = 0`. -/
theorem c7_budgets_for_month_witness :
    ∃ r ∈ list_budgets dbEmptyMonth "2024-02",
      r.id = (1 : Int) ∧ r.category_id = (1 : Int) ∧ r.category_name = "Food" ∧
      r.month = "2024-02" ∧ r.amount_cents = (1000 : Int) ∧
      r.spent_cents = spentFor dbEmptyMonth.transactions 1 "2024-02" ∧
      ((∀ t ∈ dbEmptyMonth.transactions, ¬(t.kind = "expense" ∧ t.category_id = some 1 ∧
          likeMonth "2024-02" t.occurred_on = true)) → r.spent_cents = 0) :=
  c7_budgets_for_month dbEmptyMonth "2024-02"
    { id := 1, category_id := 1, month := "2024-02", amount_cents := 1000 } (by decide) rfl
    { id := 1, name := "Food", kind := "expense" } (by decide) rfl

theorem report_months_map_month (txns : List Txn) (limit : Int) :
    (report_months txns limit).map (fun r => r.month) =
      takeLimit limit (sortBy (fun a b => charsLe b.data a.data) (txns.map monthOf).dedup) := by
  simp only [report_months, List.map_map]
  have : ((fun r : ReportMonth => r.month) ∘ fun m =>
      ({ month := m, income_cents := incomeSumMonth txns m,
         expense_cents := expenseSumMonth txns m,
         net_cents := incomeSumMonth txns m - expenseSumMonth txns m } : ReportMonth)) =
      fun m => m := by
    funext m
    rfl
  rw [this]
  simp

/-- C8: `report_months` returns at most `limit` rows, one per distinct
observed month (no duplicates), in descending month order; each row's
income and expense are that month's per-kind sums and its net is their
difference; on the scenario, `report_months … 1` is the single row
`(2024-01, 10000, 500, 9500)`. -/
theorem c8_report_months :
    (∀ (txns : List Txn) (limit : Int), 0 ≤ limit →
      (report_months txns limit).length ≤ limit.toNat) ∧
    (∀ (txns : List Txn) (limit : Int),
      ((report_months txns limit).map (fun r => r.month)).Pairwise
        (fun a b => charsLe b.data a.data = true)) ∧
    (∀ (txns : List Txn) (limit : Int),
      ((report_months txns limit).map (fun r => r.month)).Nodup) ∧
    (∀ (txns : List Txn) (limit : Int) (r : ReportMonth), r ∈ report_months txns limit →
      r.month ∈ txns.map monthOf ∧ r.income_cents = incomeSumMonth txns r.month ∧
      r.expense_cents = expenseSumMonth txns r.month ∧
      r.net_cents = r.income_cents - r.expense_cents) ∧
    report_months scenarioTxns 1 =
      [{ month := "2024-01", income_cents := 10000, expense_cents := 500,
         net_cents := 9500 }] := by
  have htot : ∀ a b : String, charsLe b.data a.data = true ∨ charsLe a.data b.data = true :=
    fun a b => charsLe_total b.data a.data
  have htrans : ∀ a b c : String, charsLe b.data a.data = true → charsLe c.data b.data = true →
      charsLe c.data a.data = true := fun a b c h1 h2 => charsLe_trans h2 h1
  refine ⟨?_, ?_, ?_, ?_, by decide⟩
  · intro txns limit hl
    have h1 : (report_months txns limit).length =
        (takeLimit limit (sortBy (fun a b => charsLe b.data a.data)
          (txns.map monthOf).dedup)).length := by
      rw [← report_months_map_month txns limit, List.length_map]
    rw [h1, takeLimit, if_neg (by omega : ¬ limit < 0), List.length_take]
    exact min_le_left _ _
  · intro txns limit
    rw [report_months_map_month, takeLimit]
    by_cases hneg : limit < 0
    · rw [if_pos hneg]
      exact sortBy_pairwise htot htrans _
    · rw [if_neg hneg]
      exact (sortBy_pairwise htot htrans _).sublist (List.take_sublist _ _)
  · intro txns limit
    rw [report_months_map_month, takeLimit]
    have hnd : (sortBy (fun a b => charsLe b.data a.data) (txns.map monthOf).dedup).Nodup :=
      ((sortBy_perm _ _).nodup_iff).mpr (List.nodup_dedup _)
    by_cases hneg : limit < 0
    · rw [if_pos hneg]
      exact hnd
    · rw [if_neg hneg]
      exact hnd.sublist (List.take_sublist _ _)
  · intro txns limit r hr
    simp only [report_months] at hr
    obtain ⟨m, hm, rfl⟩ := List.mem_map.mp hr
    refine ⟨?_, rfl, rfl, rfl⟩
    have hm2 : m ∈ sortBy (fun a b => charsLe b.data a.data) (txns.map monthOf).dedup := by
      rw [takeLimit] at hm
      by_cases hneg : limit < 0
      · rw [if_pos hneg] at hm
        exact hm
      · rw [if_neg hneg] at hm
        exact List.mem_of_mem_take hm
    exact List.mem_dedup.mp (mem_sortBy.mp hm2)

/-- Witness for C8: the length bound applied to the scenario at limit 2. -/
theorem c8_report_months_witness :
    (report_months scenarioTxns 2).length ≤ (2 : Int).toNat :=
  c8_report_months.1 scenarioTxns 2 (by decide)

theorem filter_category_length {cats : List Category}
    (hnd : (cats.map fun c => c.id).Nodup) (x : Int) :
    (cats.filter fun c => c.id == x).length =
      if cats.any fun c => c.id == x then 1 else 0 := by
  induction cats with
  | nil => rfl
  | cons c cs ih =>
    rw [List.map_cons, List.nodup_cons] at hnd
    obtain ⟨hnotin, hnd2⟩ := hnd
    rw [List.filter_cons, List.any_cons]
    by_cases hc : (c.id == x) = true
    · have hcx : c.id = x := by simpa using hc
      have hrest : (cs.filter fun c2 => c2.id == x) = [] := by
        apply List.filter_eq_nil_iff.mpr
        intro c2 hc2 hbeq
        have : c2.id = x := by simpa using hbeq
        exact hnotin (List.mem_map.mpr ⟨c2, hc2, by rw [this, hcx]⟩)
      simp [hc, hrest]
    · simp [hc, ih hnd2]

theorem list_budgets_length (db : DB) (month : String)
    (hnd : (db.categories.map fun c => c.id).Nodup) :
    (list_budgets db month).length =
      (db.budgets.filter fun b => b.month == month &&
        db.categories.any fun c => c.id == b.category_id).length := by
  simp only [list_budgets]
  rw [(sortBy_perm _ _).length_eq]
  generalize db.budgets = bs
  induction bs with
  | nil => rfl
  | cons b bs ih =>
    rw [List.filter_cons, List.filter_cons]
    by_cases hbm : (b.month == month) = true
    · by_cases ha : (db.categories.any fun c => c.id == b.category_id) = true
      · simp only [hbm, ha, if_true, Bool.true_and, List.flatMap_cons, List.length_append,
          List.length_map, filter_category_length hnd b.category_id, List.length_cons, ih]
        omega
      · simp [hbm, ha, List.flatMap_cons, filter_category_length hnd b.category_id, ih]
    · simp [hbm, ih]

theorem list_budgets_spent (db : DB) (month : String) :
    ∀ r ∈ list_budgets db month,
      r.spent_cents = spentFor db.transactions r.category_id month := by
  intro r hr
  simp only [list_budgets] at hr
  obtain ⟨b, hb, hmem⟩ := List.mem_flatMap.mp (mem_sortBy.mp hr)
  obtain ⟨c, hc, rfl⟩ := List.mem_map.mp hmem
  rfl

theorem dashboard_keys_nodup (db : DB) (month : String) :
    ((dashboard_budgets db month).map fun r => (r.category_name, r.budget_cents)).Nodup := by
  simp only [dashboard_budgets]
  refine ((sortBy_perm _ _).map _).nodup_iff.mpr ?_
  rw [List.map_map]
  have hcomp : ∀ (pairs : List (String × Int × Int)),
      ((fun r : DashboardBudget => (r.category_name, r.budget_cents)) ∘ fun k : String × Int =>
        (let spent := ((pairs.filter fun p => p.1 == k.1 && p.2.1 == k.2).map
          fun p => p.2.2).sum
         { category_name := k.1, budget_cents := k.2, spent_cents := spent,
           remaining_cents := k.2 - spent } : DashboardBudget)) = fun k => k := by
    intro pairs
    funext k
    rfl
  rw [hcomp _]
  simpa using List.nodup_dedup _

/-- Counterexample for C3: with two identical budget rows (category "Food",
month 2024-01, allocated 1000) and one matching expense of 500,
`list_budgets` lists two rows but `dashboard_budgets` merges them into a
single row whose spent is 1000 = 2 × 500, not the un-multiplied category
sum 500. -/
theorem c3_dashboard_merge_counterexample :
    (list_budgets dbTwoBudgets "2024-01").length = 2 ∧
    (list_budgets dbTwoBudgets "2024-01").map (fun r => r.spent_cents) = [500, 500] ∧
    spentFor dbTwoBudgets.transactions 1 "2024-01" = 500 ∧
    dashboard_budgets dbTwoBudgets "2024-01" =
      [{ category_name := "Food", budget_cents := 1000, spent_cents := 1000,
         remaining_cents := 0 }] ∧
    (1000 : Int) ≠ 500 :=
  ⟨by decide, by decide, by decide, by decide, by decide⟩

/-- C3 amended: `list_budgets` lists every matching budget row
independently (one output row per budget row with an existing category, and
each row's spent is the un-multiplied category sum), but `dashboard_budgets`
groups by (category name, allocated amount): it emits one row per distinct
key, and rows sharing both name and amount are merged with their matching
transactions summed once per merged row — on `dbTwoBudgets` the two
identical budgets give a single dashboard row with spent 1000 instead of
500. -/
theorem c3_budget_rows_amended :
    (∀ (db : DB) (month : String), (db.categories.map fun c => c.id).Nodup →
      (list_budgets db month).length =
        (db.budgets.filter fun b => b.month == month &&
          db.categories.any fun c => c.id == b.category_id).length) ∧
    (∀ (db : DB) (month : String) (r : BudgetRecord), r ∈ list_budgets db month →
      r.spent_cents = spentFor db.transactions r.category_id month) ∧
    (∀ (db : DB) (month : String),
      ((dashboard_budgets db month).map fun r => (r.category_name, r.budget_cents)).Nodup) ∧
    dashboard_budgets dbTwoBudgets "2024-01" =
      [{ category_name := "Food", budget_cents := 1000, spent_cents := 1000,
         remaining_cents := 0 }] ∧
    (list_budgets dbTwoBudgets "2024-01").map (fun r => r.spent_cents) = [500, 500] :=
  ⟨list_budgets_length, fun db month r hr => list_budgets_spent db month r hr,
    dashboard_keys_nodup, by decide, by decide⟩

/-- Witness for C3 at `dbTwoBudgets`, whose category ids are distinct. -/
theorem c3_budget_rows_amended_witness :
    (list_budgets dbTwoBudgets "2024-01").length =
      (dbTwoBudgets.budgets.filter fun b => b.month == "2024-01" &&
        dbTwoBudgets.categories.any fun c => c.id == b.category_id).length :=
  c3_budget_rows_amended.1 dbTwoBudgets "2024-01" (by decide)

end Lumen
